import Mathlib

/-!
Shallow embedding of the flowershow CLI publishing core
(src/lib/files.js, src/lib/utils.js, src/lib/storage.js).

Paths are modelled as POSIX strings (the code normalizes OS separators to
the forward slash before any pattern test).  File contents are byte lists.
The SHA-1 fingerprint, which no claim below depends on, is not modelled.
String primitives are implemented structurally over the character list of
the string so that every definition evaluates by kernel reduction.
-/

namespace Flowershow

/-- Lower-case a string character by character (models String.toLowerCase on
the ASCII paths the CLI handles). -/
def lowerStr (s : String) : String := ⟨s.data.map Char.toLower⟩

/-- Test whether pat is a leading substring of s (JS String.startsWith). -/
def strStarts (s pat : String) : Bool := pat.data.isPrefixOf s.data

/-- Test whether pat is a trailing substring of s (JS String.endsWith). -/
def strEnds (s pat : String) : Bool := pat.data.isSuffixOf s.data

/-- Drop the last n characters of a string. -/
def dropRightS (s : String) (n : Nat) : String := ⟨s.data.take (s.data.length - n)⟩

/-- Drop the first n characters of a string (JS String.slice(n)). -/
def dropS (s : String) (n : Nat) : String := ⟨s.data.drop n⟩

/-- Number of characters of a string. -/
def lengthS (s : String) : Nat := s.data.length

/-- Split a character list at every occurrence of c (JS String.split on a
one-character separator). -/
def splitOnC (c : Char) : List Char → List (List Char)
  | [] => [[]]
  | x :: xs =>
    match splitOnC c xs with
    | [] => [[]]
    | h :: t => if x = c then [] :: h :: t else (x :: h) :: t

/-- Split a string at every occurrence of the character c. -/
def splitStr (s : String) (c : Char) : List String := (splitOnC c s.data).map String.mk

/-- Node path.basename: the portion of the path after the last slash. -/
def basenameStr (p : String) : String := (splitStr p '/').getLastD p

/-- Node path.extname: the suffix of the basename from its last dot, or the
empty string when there is no dot or the only dot is the leading character
of the basename. -/
def extnameStr (p : String) : String :=
  let b := basenameStr p
  let parts := splitStr b '.'
  if parts.length ≤ 1 then ""
  else if parts.length = 2 && parts.headD "" == "" then ""
  else ⟨'.' :: (parts.getLastD "").data⟩

/-- getExtension from files.js: the extension without the dot, lower-cased;
empty when extname is empty. -/
def getExtension (filePath : String) : String :=
  let ext := extnameStr filePath
  if ext == "" then "" else lowerStr (dropS ext 1)

/-- Node path.basename(p, extname(p)): the basename with its own extension
suffix stripped (not stripped when the basename IS the extension). -/
def basenameNoExt (p : String) : String :=
  let b := basenameStr p
  let ext := extnameStr p
  if ext == "" then b
  else if b == ext then b
  else if strEnds b ext then dropRightS b (lengthS ext)
  else b

/-- The replace of the regex \.(md|mdx)$ (case-insensitive): strip one
trailing markdown extension. -/
def stripMdSuffix (s : String) : String :=
  if strEnds (lowerStr s) ".md" then dropRightS s 3
  else if strEnds (lowerStr s) ".mdx" then dropRightS s 4
  else s

/-- resolveFilePathToUrlPath from files.js. -/
def resolveFilePathToUrlPath (filePath : String) : String :=
  let urlPath := stripMdSuffix filePath
  if urlPath == "README" || urlPath == "readme" then "/"
  else if strEnds urlPath "/index" || strEnds urlPath "/INDEX" then
    let stripped := if strEnds (lowerStr urlPath) "/index" then dropRightS urlPath 6 else urlPath
    if stripped == "" then "/" else stripped
  else if urlPath == "" then "/" else urlPath

/-- shouldIncludeFile from files.js: the path fails every IGNORE_PATTERNS
regex.  Each regex is an anchored literal, rendered as the corresponding
startsWith / endsWith / equality test on the slash-normalized path. -/
def shouldIncludeFile (filePath : String) : Bool :=
  !(strStarts filePath ".git/" ||
    strStarts filePath "node_modules/" ||
    filePath == ".DS_Store" ||
    filePath == "Thumbs.db" ||
    strStarts filePath ".env" ||
    strEnds filePath ".log" ||
    strStarts filePath ".cache/" ||
    strStarts filePath "dist/" ||
    strStarts filePath "build/" ||
    strStarts filePath ".next/" ||
    strStarts filePath ".vercel/" ||
    strStarts filePath ".turbo/" ||
    strStarts filePath "coverage/" ||
    strStarts filePath ".nyc_output/")

/-- One byte of file content. -/
abbrev Byte := Nat

/-- A filesystem entry inside a directory input, as seen by readdirSync. -/
inductive FSEntry where
  | file (name : String) (content : List Byte)
  | dir (name : String) (entries : List FSEntry)
deriving Repr

/-- The name of a directory entry. -/
def entryName : FSEntry → String
  | .file n _ => n
  | .dir n _ => n

/-- Join path segments with the POSIX separator (path.join / the shape of
the relative paths produced by path.relative under a directory input). -/
def joinSegs : List String → String
  | [] => ""
  | [s] => s
  | s :: t :: rest => s ++ "/" ++ joinSegs (t :: rest)

mutual
/-- One step of the scan function inside scanDirectory (files.js): the entry
relative path is tested by shouldIncludeFile before dispatching on the entry
kind; an excluded directory is pruned whole, an included directory is walked
depth-first, an included file is collected with its relative segment path. -/
def scanEntry (pfx : List String) : FSEntry → List (List String × List Byte)
  | .file n c =>
      if shouldIncludeFile (joinSegs (pfx ++ [n])) then [(pfx ++ [n], c)] else []
  | .dir n es =>
      if shouldIncludeFile (joinSegs (pfx ++ [n])) then scanEntries (pfx ++ [n]) es else []

/-- scanDirectory over a list of sibling entries, in readdir order. -/
def scanEntries (pfx : List String) : List FSEntry → List (List String × List Byte)
  | [] => []
  | e :: rest => scanEntry pfx e ++ scanEntries pfx rest
end

/-- Membership of the extension in ['md', 'mdx']. -/
def isMdLike (ext : String) : Bool := ext == "md" || ext == "mdx"

/-- Strip one leading slash (the replace of /^\// in files.js). -/
def stripLeadingSlash (s : String) : String :=
  if strStarts s "/" then dropS s 1 else s

/-- The appPath computed for a markdown-class file from its target-relative
path: the resolver output, with the leading slash removed except at root. -/
def appPathFor (relPath : String) : String :=
  let urlPath := resolveFilePathToUrlPath relPath
  if urlPath == "/" then "/" else stripLeadingSlash urlPath

/-- One discovered file record, as pushed by discoverFiles (files.js).
The sha field of the source is the SHA-1 of the content and is not
modelled; size is the byte count reported by statSync. -/
structure DiscoveredFile where
  originalPath : String
  path : String
  content : List Byte
  size : Nat
  extension : String
  appPath : Option String
  projectName : Option String
deriving Repr, DecidableEq

/-- One command-line input path, pre-classified by statSync: either a single
file with its content, or a directory with its entry tree. -/
inductive Input where
  | file (path : String) (content : List Byte)
  | dir (path : String) (entries : List FSEntry)
deriving Repr

/-- The record discoverFiles pushes for a single-file input.  A first-position
file is renamed to README.mdx when its extension is mdx and to README.md
otherwise; a later file keeps its own basename and gets the resolver-derived
appPath when markdown-class. -/
def filesOfFileInput (isFirst : Bool) (p : String) (c : List Byte) : DiscoveredFile :=
  let extension := getExtension p
  if isFirst then
    { originalPath := p
      path := if extension == "mdx" then "README.mdx" else "README.md"
      content := c
      size := c.length
      extension := extension
      appPath := if isMdLike extension then some "/" else none
      projectName := none }
  else
    { originalPath := p
      path := basenameStr p
      content := c
      size := c.length
      extension := extension
      appPath := if isMdLike extension then some (appPathFor (basenameStr p)) else none
      projectName := none }

/-- The record discoverFiles pushes for one file found under a directory
input: the target path is the input-relative path, appPath is derived for
markdown-class extensions. -/
def fileOfScanned (inputPath : String) (rc : List String × List Byte) : DiscoveredFile :=
  let relPath := joinSegs rc.1
  let extension := getExtension relPath
  { originalPath := inputPath ++ "/" ++ relPath
    path := relPath
    content := rc.2
    size := rc.2.length
    extension := extension
    appPath := if isMdLike extension then some (appPathFor relPath) else none
    projectName := none }

/-- The files contributed by one input path at the given position. -/
def filesOfInput (isFirst : Bool) : Input → List DiscoveredFile
  | .file p c => [filesOfFileInput isFirst p c]
  | .dir p es => (scanEntries [] es).map (fileOfScanned p)

/-- The running state of the discoverFiles loop: the files pushed so far and
the projectName variable. -/
structure DiscoverState where
  files : List DiscoveredFile
  projectName : Option String
deriving Repr

/-- JS truthiness test of the projectName variable: null and the empty
string are falsy. -/
def pnFalsy : Option String → Bool
  | none => true
  | some s => s == ""

/-- The project identity an input yields when it is in first position: the
extension-stripped basename of a file, the basename of a directory. -/
def identityOf : Input → String
  | .file p _ => basenameNoExt p
  | .dir p _ => basenameStr p

/-- One iteration of the discoverFiles loop over the input paths. -/
def processInput (isFirst : Bool) (st : DiscoverState) : Input → DiscoverState
  | .file p c =>
      let pn := if isFirst then some (basenameNoExt p) else st.projectName
      ⟨st.files ++ [filesOfFileInput isFirst p c], pn⟩
  | .dir p es =>
      let pn := if isFirst && pnFalsy st.projectName then some (basenameStr p)
                else st.projectName
      ⟨st.files ++ (scanEntries [] es).map (fileOfScanned p), pn⟩

/-- The discoverFiles loop: the first input is processed with isFirstPath
set, all later ones without. -/
def processInputs : Bool → DiscoverState → List Input → DiscoverState
  | _, st, [] => st
  | isFirst, st, inp :: rest => processInputs false (processInput isFirst st inp) rest

/-- The final step of discoverFiles: when files were pushed and the
projectName variable is truthy, it is stored on the first file. -/
def assignProjectName (files : List DiscoveredFile) (pn : Option String) :
    List DiscoveredFile :=
  match files with
  | [] => []
  | f :: rest =>
    match pn with
    | none => f :: rest
    | some p => if p == "" then f :: rest else { f with projectName := some p } :: rest

/-- discoverFiles from files.js (multi-path revision): the empty input list
is rejected, otherwise every input contributes its files in order and the
project name derived from the first input is stored on the first file. -/
def discoverFiles (inputPaths : List Input) : Except String (List DiscoveredFile) :=
  if inputPaths.length = 0 then .error "No paths provided"
  else
    let st := processInputs true ⟨[], none⟩ inputPaths
    .ok (assignProjectName st.files st.projectName)

/-- getProjectName from files.js: the projectName of the first file. -/
def getProjectName (files : List DiscoveredFile) : Except String (Option String) :=
  match files with
  | [] => .error "No files discovered"
  | f :: _ => .ok f.projectName

/-- The targetPath column of a discovery result. -/
def targetPaths : Except String (List DiscoveredFile) → List String
  | .ok fs => fs.map DiscoveredFile.path
  | .error _ => []

/-- A legal on-disk entry name: nonempty and free of the path separator. -/
def validName (n : String) : Bool := n != "" && !(n.data.contains '/')

mutual
/-- Well-formedness of a directory entry as the filesystem guarantees it:
every name is a legal entry name and sibling names are pairwise distinct. -/
def wfEntry : FSEntry → Bool
  | .file n _ => validName n
  | .dir n es => validName n && wfEntries es

/-- Well-formedness of a sibling list of directory entries. -/
def wfEntries : List FSEntry → Bool
  | [] => true
  | e :: rest =>
      wfEntry e && rest.all (fun e2 => entryName e2 != entryName e) && wfEntries rest
end

/-- The processing status of a tracked blob (db schema: PENDING at upload
for content files, flipped to SUCCESS or ERROR by the remote processor). -/
inductive SyncStatus where
  | PENDING
  | SUCCESS
  | ERROR
deriving Repr, DecidableEq

/-- One row returned by getSyncStatus: the markdown blobs of the site with
their processing status. -/
structure Blob where
  path : String
  syncStatus : SyncStatus
  syncError : Option String
deriving Repr, DecidableEq

/-- The object returned by waitForSync (utils.js).  The source returns
object literals with varying key sets; a key absent from a literal is
undefined, hence falsy, and is modelled as false respectively none. -/
structure SyncResult where
  success : Bool
  blobs : List Blob
  errors : Option (List Blob)
  timeout : Bool
deriving Repr, DecidableEq

/-- The polling loop of waitForSync (utils.js).  Time model: the remote
snapshot is a function of the tick index; fetching and filtering take no
time and sleep(1000) advances exactly one tick, so iteration t runs at
t seconds after start and the guard (now - start < maxWaitMs) holds while
t < maxWaitSeconds; the fuel argument is the number of guard-passing ticks
left.  When the guard fails the code fetches one final snapshot at the
current tick and reports a timeout. -/
def waitForSyncAux (statusAt : Nat → List Blob) : Nat → Nat → SyncResult
  | t, 0 =>
      { success := false, blobs := statusAt t, errors := none, timeout := true }
  | t, fuel + 1 =>
      let blobs := statusAt t
      if blobs.length = 0 then
        { success := true, blobs := [], errors := none, timeout := false }
      else
        let pending := blobs.filter (fun b => b.syncStatus == SyncStatus.PENDING)
        let errors := blobs.filter (fun b => b.syncStatus == SyncStatus.ERROR)
        if pending.length = 0 then
          if errors.length > 0 then
            { success := false, blobs := blobs, errors := some errors, timeout := false }
          else
            { success := true, blobs := blobs, errors := none, timeout := false }
        else waitForSyncAux statusAt (t + 1) fuel

/-- waitForSync from utils.js.  The deadline is kept as an integer so that
zero and negative values behave as in the source, where the loop guard
fails immediately and only the final timeout fetch runs. -/
def waitForSync (statusAt : Nat → List Blob) (maxWaitSeconds : Int) : SyncResult :=
  waitForSyncAux statusAt 0 maxWaitSeconds.toNat

/-- The slice of a discovered file handed to uploadFiles (storage.js). -/
structure UploadFileRec where
  path : String
  content : List Byte
  extension : String
deriving Repr, DecidableEq

/-- One entry of the list uploadFiles returns. -/
structure UploadResult where
  path : String
  success : Bool
  error : Option String
deriving Repr, DecidableEq

/-- The try/catch around one uploadFile call (storage.js): the transfer of
one file either succeeds or throws an error message, modelled by the
transfer oracle; the catch converts a thrown error into a per-file failure
entry instead of propagating it. -/
def uploadOutcome (transfer : UploadFileRec → Except String Unit)
    (f : UploadFileRec) : UploadResult :=
  match transfer f with
  | .ok _ => { path := f.path, success := true, error := none }
  | .error e => { path := f.path, success := false, error := some e }

/-- uploadFiles from storage.js: iterate the files in order, pushing one
result entry per file onto the results array. -/
def uploadFiles (transfer : UploadFileRec → Except String Unit)
    (files : List UploadFileRec) : List UploadResult :=
  files.foldl (fun results f => results ++ [uploadOutcome transfer f]) []

/-- Character-level mirror of joinSegs, used to reason about separator
injectivity. -/
def charsJoin : List (List Char) → List Char
  | [] => []
  | [s] => s
  | s :: t :: rest => s ++ '/' :: charsJoin (t :: rest)

/-- A transfer oracle used by the concrete upload witness: the file whose
target path is bad fails with message boom, every other file succeeds. -/
def demoTransfer : UploadFileRec → Except String Unit :=
  fun f => if f.path == "bad" then .error "boom" else .ok ()

/-- The byte content of the .gitignore file of the C3 failing input: the
ASCII text secret.txt. -/
def gitignoreContent : List Byte := "secret.txt".data.map Char.toNat

/-- A status history used by the convergence witness: one tracked file that
is PENDING on ticks 0 and 1 and SUCCESS from tick 2 on. -/
def demoStatusSucc : Nat → List Blob :=
  fun t =>
    if t < 2 then [⟨"a.md", SyncStatus.PENDING, none⟩]
    else [⟨"a.md", SyncStatus.SUCCESS, none⟩]

/-- A status history used by the timeout witness: one tracked file that
never leaves PENDING. -/
def demoStatusStuck : Nat → List Blob :=
  fun _ => [⟨"a.md", SyncStatus.PENDING, none⟩]

/-- A status history used by the zero-deadline witness: one tracked file
already in the terminal SUCCESS state at every tick. -/
def demoStatusDone : Nat → List Blob :=
  fun _ => [⟨"a.md", SyncStatus.SUCCESS, none⟩]

/-! ### Helper lemmas -/

theorem foldl_push_eq_map {α β : Type} (g : α → β) (l : List α) (acc : List β) :
    l.foldl (fun r f => r ++ [g f]) acc = acc ++ l.map g := by
  induction l generalizing acc with
  | nil => simp
  | cons x xs ih => simp [List.foldl_cons, ih]

theorem assignProjectName_paths (fs : List DiscoveredFile) (pn : Option String) :
    (assignProjectName fs pn).map DiscoveredFile.path = fs.map DiscoveredFile.path := by
  unfold assignProjectName
  cases fs with
  | nil => cases pn <;> rfl
  | cons f rest =>
    cases pn with
    | none => rfl
    | some p => by_cases hp : (p == "") = true <;> simp [hp]

theorem processInput_files (b : Bool) (st : DiscoverState) (inp : Input) :
    (processInput b st inp).files = st.files ++ filesOfInput b inp := by
  cases inp <;> rfl

theorem processInput_false_pn (st : DiscoverState) (inp : Input) :
    (processInput false st inp).projectName = st.projectName := by
  cases inp <;> rfl

theorem processInputs_false_files (l : List Input) (st : DiscoverState) :
    (processInputs false st l).files = st.files ++ l.flatMap (filesOfInput false) := by
  induction l generalizing st with
  | nil => simp [processInputs]
  | cons i rest ih => simp [processInputs, ih, processInput_files]

theorem processInputs_false_pn (l : List Input) (st : DiscoverState) :
    (processInputs false st l).projectName = st.projectName := by
  induction l generalizing st with
  | nil => rfl
  | cons i rest ih => simp [processInputs, ih, processInput_false_pn]

theorem processInput_true_init_pn (i : Input) :
    (processInput true ⟨[], none⟩ i).projectName = some (identityOf i) := by
  cases i <;> rfl

theorem discoverFiles_cons (i : Input) (rest : List Input) :
    discoverFiles (i :: rest) =
      .ok (assignProjectName
            (filesOfInput true i ++ rest.flatMap (filesOfInput false))
            (some (identityOf i))) := by
  unfold discoverFiles
  simp only [List.length_cons, Nat.succ_ne_zero, if_neg]
  have hfiles :
      (processInputs true ⟨[], none⟩ (i :: rest)).files =
        filesOfInput true i ++ rest.flatMap (filesOfInput false) := by
    show (processInputs false (processInput true ⟨[], none⟩ i) rest).files = _
    rw [processInputs_false_files, processInput_files]
    simp
  have hpn :
      (processInputs true ⟨[], none⟩ (i :: rest)).projectName = some (identityOf i) := by
    show (processInputs false (processInput true ⟨[], none⟩ i) rest).projectName = _
    rw [processInputs_false_pn, processInput_true_init_pn]
  rw [hfiles, hpn]
  simp

mutual

theorem scanEntry_includes (pfx : List String) (e : FSEntry) :
    ∀ rc ∈ scanEntry pfx e, shouldIncludeFile (joinSegs rc.1) = true := by
  cases e with
  | file n c =>
    intro rc hrc
    rw [scanEntry] at hrc
    split at hrc
    case isTrue h => rw [List.mem_singleton] at hrc; subst hrc; exact h
    case isFalse h => exact absurd hrc (List.not_mem_nil rc)
  | dir n es =>
    intro rc hrc
    rw [scanEntry] at hrc
    split at hrc
    case isTrue h => exact scanEntries_includes (pfx ++ [n]) es rc hrc
    case isFalse h => exact absurd hrc (List.not_mem_nil rc)

theorem scanEntries_includes (pfx : List String) (es : List FSEntry) :
    ∀ rc ∈ scanEntries pfx es, shouldIncludeFile (joinSegs rc.1) = true := by
  cases es with
  | nil => intro rc hrc; exact absurd hrc (List.not_mem_nil rc)
  | cons e rest =>
    intro rc hrc
    rw [scanEntries, List.mem_append] at hrc
    rcases hrc with h | h
    · exact scanEntry_includes pfx e rc h
    · exact scanEntries_includes pfx rest rc h

end

mutual

theorem scanEntry_shape (pfx : List String) (e : FSEntry) :
    ∀ rc ∈ scanEntry pfx e, ∃ t, rc.1 = pfx ++ entryName e :: t := by
  cases e with
  | file n c =>
    intro rc hrc
    rw [scanEntry] at hrc
    split at hrc
    case isTrue h =>
      rw [List.mem_singleton] at hrc; subst hrc
      exact ⟨[], rfl⟩
    case isFalse h => exact absurd hrc (List.not_mem_nil rc)
  | dir n es =>
    intro rc hrc
    rw [scanEntry] at hrc
    split at hrc
    case isTrue h =>
      obtain ⟨e2, _, t, ht⟩ := scanEntries_shape (pfx ++ [n]) es rc hrc
      exact ⟨entryName e2 :: t, by simpa using ht⟩
    case isFalse h => exact absurd hrc (List.not_mem_nil rc)

theorem scanEntries_shape (pfx : List String) (es : List FSEntry) :
    ∀ rc ∈ scanEntries pfx es, ∃ e ∈ es, ∃ t, rc.1 = pfx ++ entryName e :: t := by
  cases es with
  | nil => intro rc hrc; exact absurd hrc (List.not_mem_nil rc)
  | cons e rest =>
    intro rc hrc
    rw [scanEntries, List.mem_append] at hrc
    rcases hrc with h | h
    · obtain ⟨t, ht⟩ := scanEntry_shape pfx e rc h
      exact ⟨e, List.mem_cons_self e rest, t, ht⟩
    · obtain ⟨e2, he2, t, ht⟩ := scanEntries_shape pfx rest rc h
      exact ⟨e2, List.mem_cons_of_mem e he2, t, ht⟩

end

mutual

theorem scanEntry_valid (pfx : List String) (e : FSEntry) (hwf : wfEntry e = true) :
    ∀ rc ∈ scanEntry pfx e,
      ∃ t, rc.1 = pfx ++ t ∧ t ≠ [] ∧ ∀ s ∈ t, validName s = true := by
  cases e with
  | file n c =>
    intro rc hrc
    rw [scanEntry] at hrc
    split at hrc
    case isTrue h =>
      rw [List.mem_singleton] at hrc; subst hrc
      refine ⟨[n], rfl, by simp, ?_⟩
      intro s hs
      rw [List.mem_singleton] at hs; subst hs
      exact hwf
    case isFalse h => exact absurd hrc (List.not_mem_nil rc)
  | dir n es =>
    intro rc hrc
    rw [scanEntry] at hrc
    rw [wfEntry, Bool.and_eq_true] at hwf
    split at hrc
    case isTrue h =>
      obtain ⟨t, ht, _, hvalid⟩ := scanEntries_valid (pfx ++ [n]) es hwf.2 rc hrc
      refine ⟨n :: t, by simpa using ht, by simp, ?_⟩
      intro s hs
      rw [List.mem_cons] at hs
      rcases hs with h1 | h1
      · subst h1; exact hwf.1
      · exact hvalid s h1
    case isFalse h => exact absurd hrc (List.not_mem_nil rc)

theorem scanEntries_valid (pfx : List String) (es : List FSEntry) (hwf : wfEntries es = true) :
    ∀ rc ∈ scanEntries pfx es,
      ∃ t, rc.1 = pfx ++ t ∧ t ≠ [] ∧ ∀ s ∈ t, validName s = true := by
  cases es with
  | nil => intro rc hrc; exact absurd hrc (List.not_mem_nil rc)
  | cons e rest =>
    intro rc hrc
    rw [wfEntries, Bool.and_eq_true, Bool.and_eq_true] at hwf
    rw [scanEntries, List.mem_append] at hrc
    rcases hrc with h | h
    · exact scanEntry_valid pfx e hwf.1.1 rc h
    · exact scanEntries_valid pfx rest hwf.2 rc h

end

mutual

theorem scanEntry_nodup (pfx : List String) (e : FSEntry) (hwf : wfEntry e = true) :
    ((scanEntry pfx e).map Prod.fst).Nodup := by
  cases e with
  | file n c =>
    rw [scanEntry]
    split
    case isTrue h => simp
    case isFalse h => simp
  | dir n es =>
    rw [scanEntry]
    rw [wfEntry, Bool.and_eq_true] at hwf
    split
    case isTrue h => exact scanEntries_nodup (pfx ++ [n]) es hwf.2
    case isFalse h => simp

theorem scanEntries_nodup (pfx : List String) (es : List FSEntry) (hwf : wfEntries es = true) :
    ((scanEntries pfx es).map Prod.fst).Nodup := by
  cases es with
  | nil => simp [scanEntries]
  | cons e rest =>
    rw [wfEntries, Bool.and_eq_true, Bool.and_eq_true] at hwf
    rw [scanEntries, List.map_append, List.nodup_append]
    refine ⟨scanEntry_nodup pfx e hwf.1.1, scanEntries_nodup pfx rest hwf.2, ?_⟩
    intro a ha ha2
    rw [List.mem_map] at ha ha2
    obtain ⟨rc1, hrc1, hrc1a⟩ := ha
    obtain ⟨rc2, hrc2, hrc2a⟩ := ha2
    obtain ⟨t1, ht1⟩ := scanEntry_shape pfx e rc1 hrc1
    obtain ⟨e2, he2, t2, ht2⟩ := scanEntries_shape pfx rest rc2 hrc2
    have heq : pfx ++ entryName e :: t1 = pfx ++ entryName e2 :: t2 := by
      rw [← ht1, ← ht2, hrc1a, hrc2a]
    have hnames : entryName e = entryName e2 := by
      have := List.append_cancel_left heq
      exact (List.cons.injEq _ _ _ _ ▸ this).1
    have hall := hwf.1.2
    rw [List.all_eq_true] at hall
    have := hall e2 he2
    rw [bne_iff_ne] at this
    exact this hnames.symm

end

theorem sep_split_inj :
    ∀ (a b u v : List Char), '/' ∉ a → '/' ∉ b →
      a ++ '/' :: u = b ++ '/' :: v → a = b ∧ u = v := by
  intro a
  induction a with
  | nil =>
    intro b u v _ hb h
    cases b with
    | nil => simpa using h
    | cons d b2 =>
      exfalso
      simp only [List.nil_append, List.cons_append, List.cons.injEq] at h
      exact hb (h.1 ▸ List.mem_cons_self d b2)
  | cons c a2 ih =>
    intro b u v ha hb h
    cases b with
    | nil =>
      exfalso
      simp only [List.nil_append, List.cons_append, List.cons.injEq] at h
      exact ha (h.1.symm ▸ List.mem_cons_self c a2)
    | cons d b2 =>
      simp only [List.cons_append, List.cons.injEq] at h
      have ha2 : '/' ∉ a2 := fun hm => ha (List.mem_cons_of_mem c hm)
      have hb2 : '/' ∉ b2 := fun hm => hb (List.mem_cons_of_mem d hm)
      obtain ⟨h1, h2⟩ := ih b2 u v ha2 hb2 h.2
      exact ⟨by rw [h.1, h1], h2⟩

theorem charsJoin_ne_nil (x : List Char) (rest : List (List Char)) (hx : x ≠ []) :
    charsJoin (x :: rest) ≠ [] := by
  cases rest with
  | nil => simpa [charsJoin] using hx
  | cons y rest2 =>
    simp only [charsJoin]
    simp

theorem slash_mem_charsJoin (x y : List Char) (rest : List (List Char)) :
    '/' ∈ charsJoin (x :: y :: rest) := by
  simp only [charsJoin]
  exact List.mem_append_right x (List.mem_cons_self _ _)

theorem charsJoin_inj :
    ∀ xs ys : List (List Char),
      (∀ l ∈ xs, l ≠ [] ∧ '/' ∉ l) → (∀ l ∈ ys, l ≠ [] ∧ '/' ∉ l) →
      charsJoin xs = charsJoin ys → xs = ys := by
  intro xs
  induction xs with
  | nil =>
    intro ys _ hys h
    cases ys with
    | nil => rfl
    | cons y ys2 =>
      exfalso
      exact charsJoin_ne_nil y ys2 (hys y (List.mem_cons_self y ys2)).1 h.symm
  | cons x xs2 ih =>
    intro ys hxs hys h
    cases ys with
    | nil =>
      exfalso
      exact charsJoin_ne_nil x xs2 (hxs x (List.mem_cons_self x xs2)).1 h
    | cons y ys2 =>
      cases xs2 with
      | nil =>
        cases ys2 with
        | nil => simp only [charsJoin] at h; rw [h]
        | cons y2 ys3 =>
          exfalso
          have hx := (hxs x (List.mem_cons_self x [])).2
          simp only [charsJoin] at h
          have : '/' ∈ x := by rw [h]; simp
          exact hx this
      | cons x2 xs3 =>
        cases ys2 with
        | nil =>
          exfalso
          have hy := (hys y (List.mem_cons_self y [])).2
          simp only [charsJoin] at h
          have : '/' ∈ y := by rw [← h]; simp
          exact hy this
        | cons y2 ys3 =>
          simp only [charsJoin] at h
          have hx := hxs x (List.mem_cons_self x (x2 :: xs3))
          have hy := hys y (List.mem_cons_self y (y2 :: ys3))
          obtain ⟨h1, h2⟩ := sep_split_inj x y _ _ hx.2 hy.2 h
          have htail : x2 :: xs3 = y2 :: ys3 := by
            refine ih (y2 :: ys3) ?_ ?_ h2
            · intro l hl; exact hxs l (List.mem_cons_of_mem x hl)
            · intro l hl; exact hys l (List.mem_cons_of_mem y hl)
          rw [h1, htail]

theorem joinSegs_data :
    ∀ xs : List String, (joinSegs xs).data = charsJoin (xs.map String.data) := by
  intro xs
  induction xs with
  | nil => rfl
  | cons x rest ih =>
    cases rest with
    | nil => rfl
    | cons y rest2 =>
      simp only [joinSegs, List.map_cons, charsJoin]
      rw [String.data_append, String.data_append, ih]
      have hsep : ("/" : String).data = ['/'] := rfl
      simp [hsep]

theorem validName_data (s : String) (h : validName s = true) :
    s.data ≠ [] ∧ '/' ∉ s.data := by
  rw [validName, Bool.and_eq_true] at h
  constructor
  · intro hnil
    have hs : s = "" := String.ext_iff.mpr hnil
    rw [hs] at h
    simp at h
  · intro hmem
    have h2 : s.data.contains '/' = false := by simpa using h.2
    simp_all

theorem joinSegs_inj (xs ys : List String)
    (hxs : ∀ s ∈ xs, validName s = true) (hys : ∀ s ∈ ys, validName s = true)
    (h : joinSegs xs = joinSegs ys) : xs = ys := by
  have hdata : charsJoin (xs.map String.data) = charsJoin (ys.map String.data) := by
    rw [← joinSegs_data, ← joinSegs_data, h]
  have hmap : xs.map String.data = ys.map String.data := by
    refine charsJoin_inj _ _ ?_ ?_ hdata
    · intro l hl
      rw [List.mem_map] at hl
      obtain ⟨s, hs, rfl⟩ := hl
      exact validName_data s (hxs s hs)
    · intro l hl
      rw [List.mem_map] at hl
      obtain ⟨s, hs, rfl⟩ := hl
      exact validName_data s (hys s hs)
  have hinj : Function.Injective String.data := fun a b hab => String.ext_iff.mpr hab
  exact List.map_injective_iff.mpr hinj hmap

theorem waitForSyncAux_success (statusAt : Nat → List Blob) (N : Nat)
    (hsucc : ∀ b ∈ statusAt N, b.syncStatus = SyncStatus.SUCCESS) :
    ∀ (fuel t : Nat), t ≤ N → N < t + fuel →
      (∀ u, t ≤ u → u < N → ∀ b ∈ statusAt u, b.syncStatus = SyncStatus.PENDING) →
      (waitForSyncAux statusAt t fuel).success = true ∧
        (waitForSyncAux statusAt t fuel).timeout = false := by
  intro fuel
  induction fuel with
  | zero => intro t h1 h2 _; omega
  | succ fuel ih =>
    intro t h1 h2 hpend
    rw [waitForSyncAux]
    by_cases hlen : (statusAt t).length = 0
    · simp [hlen]
    · rw [if_neg hlen]
      rcases Nat.lt_or_ge t N with hlt | hge
      · have hfilt :
            (statusAt t).filter (fun b => b.syncStatus == SyncStatus.PENDING) = statusAt t :=
          List.filter_eq_self.mpr (by intro b hb; simp [hpend t le_rfl hlt b hb])
        have hplen : ¬ ((statusAt t).filter
            (fun b => b.syncStatus == SyncStatus.PENDING)).length = 0 := by
          rw [hfilt]; exact hlen
        simp only [hplen, if_neg, if_false]
        exact ih (t + 1) (by omega) (by omega)
          (fun u hu1 hu2 => hpend u (by omega) hu2)
      · have htN : t = N := Nat.le_antisymm h1 hge
        subst htN
        have hfilt :
            (statusAt t).filter (fun b => b.syncStatus == SyncStatus.PENDING) = [] :=
          List.filter_eq_nil_iff.mpr (by intro b hb; simp [hsucc b hb])
        have hefilt :
            (statusAt t).filter (fun b => b.syncStatus == SyncStatus.ERROR) = [] :=
          List.filter_eq_nil_iff.mpr (by intro b hb; simp [hsucc b hb])
        simp [hfilt, hefilt]

theorem waitForSyncAux_timeout (statusAt : Nat → List Blob) :
    ∀ (fuel t : Nat),
      (∀ u, t ≤ u → u ≤ t + fuel →
        statusAt u ≠ [] ∧ ∀ b ∈ statusAt u, b.syncStatus = SyncStatus.PENDING) →
      waitForSyncAux statusAt t fuel =
        { success := false, blobs := statusAt (t + fuel), errors := none, timeout := true } := by
  intro fuel
  induction fuel with
  | zero => intro t _; rw [waitForSyncAux]; simp
  | succ fuel ih =>
    intro t h
    rw [waitForSyncAux]
    obtain ⟨hne, hpend⟩ := h t le_rfl (by omega)
    have hlen : ¬ (statusAt t).length = 0 := by
      rw [List.length_eq_zero]
      exact hne
    rw [if_neg hlen]
    have hfilt :
        (statusAt t).filter (fun b => b.syncStatus == SyncStatus.PENDING) = statusAt t :=
      List.filter_eq_self.mpr (by intro b hb; simp [hpend b hb])
    have hplen : ¬ ((statusAt t).filter
        (fun b => b.syncStatus == SyncStatus.PENDING)).length = 0 := by
      rw [hfilt]; exact hlen
    simp only [hplen, if_neg, if_false]
    have := ih (t + 1) (fun u hu1 hu2 => h u (by omega) (by omega))
    rw [this]
    have harith : t + 1 + fuel = t + (fuel + 1) := by omega
    rw [harith]

theorem uploadFiles_eq_map (transfer : UploadFileRec → Except String Unit)
    (files : List UploadFileRec) :
    uploadFiles transfer files = files.map (uploadOutcome transfer) := by
  unfold uploadFiles
  simpa using foldl_push_eq_map (uploadOutcome transfer) files []

theorem strEnds_lower_index (s : String)
    (h : strEnds s "/index" = true ∨ strEnds s "/INDEX" = true) :
    strEnds (lowerStr s) "/index" = true := by
  have hdata : (lowerStr s).data = s.data.map Char.toLower := rfl
  rcases h with h | h
  · rw [strEnds, List.isSuffixOf_iff_suffix] at h ⊢
    rw [hdata]
    have hmap : ("/index" : String).data.map Char.toLower = ("/index" : String).data := by
      decide
    rw [← hmap]
    exact h.map Char.toLower
  · rw [strEnds, List.isSuffixOf_iff_suffix] at h ⊢
    rw [hdata]
    have hmap : ("/INDEX" : String).data.map Char.toLower = ("/index" : String).data := by
      decide
    rw [← hmap]
    exact h.map Char.toLower

/-! ### Claim theorems -/

/-- Claim C9: the path resolver satisfies the four specified input/output
pairs; in particular index/index.md strips only the last index segment. -/
theorem claim_C9_resolver_pairs :
    resolveFilePathToUrlPath "README.md" = "/" ∧
    resolveFilePathToUrlPath "docs/index.mdx" = "docs" ∧
    resolveFilePathToUrlPath "a/b.md" = "a/b" ∧
    resolveFilePathToUrlPath "index/index.md" = "index" := by decide

/-- Claim C5, counterexample: the resolver does NOT match README and index
case-insensitively; mixed-case spellings are returned verbatim instead of
being collapsed to the root or to the parent directory. -/
theorem claim_C5_counterexample :
    resolveFilePathToUrlPath "ReadMe.md" = "ReadMe" ∧
    resolveFilePathToUrlPath "Readme.mdx" = "Readme" ∧
    resolveFilePathToUrlPath "docs/Index.md" = "docs/Index" ∧
    resolveFilePathToUrlPath "docs/iNdEx.md" = "docs/iNdEx" ∧
    ("ReadMe" : String) ≠ "/" ∧ ("docs/Index" : String) ≠ "docs" := by decide

/-- Claim C5, amended: only the exact stem spellings README and readme map
to the site root, and only the exact final-segment spellings index and
INDEX are stripped (the markdown-extension strip itself is
case-insensitive); any other letter case is returned verbatim. -/
theorem claim_C5_amended :
    (∀ p : String, stripMdSuffix p = "README" ∨ stripMdSuffix p = "readme" →
      resolveFilePathToUrlPath p = "/") ∧
    (∀ p : String,
      (strEnds (stripMdSuffix p) "/index" || strEnds (stripMdSuffix p) "/INDEX") = true →
      stripMdSuffix p ≠ "README" → stripMdSuffix p ≠ "readme" →
      resolveFilePathToUrlPath p =
        (if dropRightS (stripMdSuffix p) 6 == "" then "/"
         else dropRightS (stripMdSuffix p) 6)) := by
  constructor
  · intro p h
    rcases h with h | h <;> simp [resolveFilePathToUrlPath, h]
  · intro p hEnds h1 h2
    have hguard : (stripMdSuffix p == "README" || stripMdSuffix p == "readme") = false := by
      simp [h1, h2]
    have hlow : strEnds (lowerStr (stripMdSuffix p)) "/index" = true :=
      strEnds_lower_index (stripMdSuffix p) (by simpa [Bool.or_eq_true] using hEnds)
    simp only [resolveFilePathToUrlPath, hguard, hEnds, hlow, Bool.false_eq_true, if_false,
      if_true]

/-- Claim C5, witness: the amended theorem applied at readme.mdx and at
docs/INDEX.md. -/
theorem claim_C5_witness :
    resolveFilePathToUrlPath "readme.mdx" = "/" ∧
    resolveFilePathToUrlPath "docs/INDEX.md" = "docs" := by
  constructor
  · exact claim_C5_amended.1 "readme.mdx" (by decide)
  · exact (claim_C5_amended.2 "docs/INDEX.md" (by decide) (by decide) (by decide)).trans
      (by decide)

/-- Claim C1, counterexample: two single-file inputs with the same basename
README.md yield two records with the same targetPath, so targetPath values
are not pairwise distinct across a multi-path discovery result. -/
theorem claim_C1_counterexample :
    targetPaths (discoverFiles
      [Input.file "x/README.md" [1], Input.file "y/README.md" [2]]) =
      ["README.md", "README.md"] ∧
    ¬ (["README.md", "README.md"] : List String).Nodup := by decide

/-- Claim C1, amended: targetPath values are pairwise distinct for every
single-input invocation (a lone file, or a lone well-formed directory
tree), by the naming rule alone; with several input paths duplicates can
occur, as no post-hoc dedup is performed. -/
theorem claim_C1_amended :
    (∀ (p : String) (c : List Byte),
      (targetPaths (discoverFiles [Input.file p c])).Nodup) ∧
    (∀ (p : String) (es : List FSEntry), wfEntries es = true →
      (targetPaths (discoverFiles [Input.dir p es])).Nodup) := by
  constructor
  · intro p c
    rw [discoverFiles_cons, targetPaths, assignProjectName_paths]
    simp [filesOfInput]
  · intro p es hwf
    rw [discoverFiles_cons, targetPaths, assignProjectName_paths]
    simp only [List.flatMap_nil, List.append_nil]
    rw [filesOfInput, List.map_map]
    have hfun : (DiscoveredFile.path ∘ fileOfScanned p) =
        (joinSegs ∘ Prod.fst :
          List String × List Byte → String) := rfl
    rw [hfun, ← List.map_map]
    refine List.Nodup.map_on ?_ (scanEntries_nodup [] es hwf)
    intro x hx y hy hxy
    rw [List.mem_map] at hx hy
    obtain ⟨rcx, hrcx, rfl⟩ := hx
    obtain ⟨rcy, hrcy, rfl⟩ := hy
    obtain ⟨tx, htx, _, hvx⟩ := scanEntries_valid [] es hwf rcx hrcx
    obtain ⟨ty, hty, _, hvy⟩ := scanEntries_valid [] es hwf rcy hrcy
    rw [List.nil_append] at htx hty
    refine joinSegs_inj _ _ ?_ ?_ hxy
    · rw [htx]; exact hvx
    · rw [hty]; exact hvy

/-- Claim C1, witness: the amended theorem applied at a lone markdown file
and at a directory holding a.md plus docs/a.md. -/
theorem claim_C1_witness :
    (targetPaths (discoverFiles [Input.file "n.md" [1]])).Nodup ∧
    (targetPaths (discoverFiles [Input.dir "proj"
      [FSEntry.file "a.md" [1], FSEntry.dir "docs" [FSEntry.file "a.md" [2]]]])).Nodup :=
  ⟨claim_C1_amended.1 "n.md" [1], claim_C1_amended.2 "proj" _ (by decide)⟩

/-- Claim C2, counterexample: a non-markdown single file in first position
is renamed to README.md instead of keeping its own name photo.png. -/
theorem claim_C2_counterexample :
    targetPaths (discoverFiles [Input.file "photo.png" [7]]) = ["README.md"] ∧
    ("README.md" : String) ≠ "photo.png" := by decide

/-- Claim C2, amended: a single-file input keeps its own base filename and
extension as targetPath only in a non-first position; the first input file
is always renamed, to README.mdx when its extension is mdx and to
README.md otherwise, even when it is not a content-markdown type. -/
theorem claim_C2_amended (first : Input) (pre post rest : List Input)
    (p : String) (c : List Byte) :
    targetPaths (discoverFiles (first :: (pre ++ Input.file p c :: post))) =
      (filesOfInput true first).map DiscoveredFile.path ++
        (pre.flatMap (filesOfInput false)).map DiscoveredFile.path ++
        basenameStr p ::
          (post.flatMap (filesOfInput false)).map DiscoveredFile.path ∧
    targetPaths (discoverFiles (Input.file p c :: rest)) =
      (if getExtension p == "mdx" then "README.mdx" else "README.md") ::
        (rest.flatMap (filesOfInput false)).map DiscoveredFile.path := by
  constructor
  · rw [discoverFiles_cons, targetPaths, assignProjectName_paths]
    rw [List.flatMap_append, List.flatMap_cons]
    have hmid : filesOfInput false (Input.file p c) = [filesOfFileInput false p c] := rfl
    have hpath : (filesOfFileInput false p c).path = basenameStr p := rfl
    simp [hmid, hpath]
  · rw [discoverFiles_cons, targetPaths, assignProjectName_paths]
    have hfst : filesOfInput true (Input.file p c) = [filesOfFileInput true p c] := rfl
    have hpath : (filesOfFileInput true p c).path =
        (if getExtension p == "mdx" then "README.mdx" else "README.md") := rfl
    simp [hfst, hpath]

/-- Claim C3: evaluation of the code at the failing input.  A directory
holding a .gitignore whose text names secret.txt, together with
secret.txt itself, is published with BOTH files present: the built-in
pattern list is the only filter and the .gitignore is never read. -/
theorem claim_C3_gitignore_not_applied :
    targetPaths (discoverFiles [Input.dir "proj"
      [FSEntry.file ".gitignore" gitignoreContent,
       FSEntry.file "secret.txt" [42]]]) =
      [".gitignore", "secret.txt"] := by decide

/-- Claim C4, counterexample: a file under a nested version-control
metadata directory (relative path sub/.git/config) IS present in the
discovery output, because every built-in ignore pattern is anchored at the
start of the input-relative path. -/
theorem claim_C4_counterexample :
    targetPaths (discoverFiles [Input.dir "proj"
      [FSEntry.dir "sub" [FSEntry.dir ".git" [FSEntry.file "config" [2]]]]]) =
      ["sub/.git/config"] := by decide

/-- Claim C4, amended: for a directory input, no discovered targetPath lies
under a version-control metadata directory at the ROOT of that input (no
output path starts with .git/); deeper .git directories are not filtered. -/
theorem claim_C4_amended (p : String) (es : List FSEntry) (q : String)
    (hq : q ∈ targetPaths (discoverFiles [Input.dir p es])) :
    strStarts q ".git/" = false := by
  rw [discoverFiles_cons, targetPaths, assignProjectName_paths] at hq
  simp only [List.flatMap_nil, List.append_nil] at hq
  rw [filesOfInput, List.map_map] at hq
  rw [List.mem_map] at hq
  obtain ⟨rc, hrc, rfl⟩ := hq
  have hinc := scanEntries_includes [] es rc hrc
  rw [shouldIncludeFile] at hinc
  simp only [Bool.not_eq_true', Bool.or_eq_false_iff] at hinc
  exact hinc.1.1.1.1.1.1.1.1.1.1.1.1.1

/-- Claim C4, witness: the amended theorem applied at a one-file directory. -/
theorem claim_C4_witness : strStarts "a.md" ".git/" = false :=
  claim_C4_amended "proj" [FSEntry.file "a.md" [1]] "a.md" (by decide)

/-- Claim C7: the project identity of a discovery result is derived from
the first input alone (the file stem, or the directory basename) and is
unchanged by any further inputs of the invocation. -/
theorem claim_C7_single_identity (i : Input) (rest : List Input)
    (fs : List DiscoveredFile)
    (h1 : discoverFiles (i :: rest) = Except.ok fs) (h2 : fs ≠ [])
    (h3 : identityOf i ≠ "") :
    getProjectName fs = Except.ok (some (identityOf i)) := by
  rw [discoverFiles_cons] at h1
  have hfs := Except.ok.inj h1
  cases hsplit : filesOfInput true i ++ rest.flatMap (filesOfInput false) with
  | nil =>
    rw [hsplit] at hfs
    have : fs = [] := by rw [← hfs]; rfl
    exact absurd this h2
  | cons f r =>
    rw [hsplit] at hfs
    have hbeq : (identityOf i == "") = false := by simp [h3]
    rw [assignProjectName] at hfs
    simp only [hbeq, if_false, Bool.false_eq_true] at hfs
    rw [← hfs]
    rfl

/-- Claim C7, witness: the identity notes is taken from the single file
input a/notes.md. -/
theorem claim_C7_witness :
    getProjectName [⟨"a/notes.md", "README.md", [1], 1, "md", some "/", some "notes"⟩] =
      Except.ok (some "notes") :=
  claim_C7_single_identity (Input.file "a/notes.md" [1]) [] _ rfl (by decide) (by decide)

/-- Claim C8: each file transfer is handled independently by uploadFiles:
the result list has exactly one entry per input file, the entry for a file
depends only on that file's own transfer outcome, and a failed transfer is
recorded as a path/success:false/error entry instead of being thrown. -/
theorem claim_C8_upload_isolation (transfer : UploadFileRec → Except String Unit)
    (files : List UploadFileRec) :
    uploadFiles transfer files = files.map (uploadOutcome transfer) ∧
    (uploadFiles transfer files).length = files.length ∧
    ∀ f e, f ∈ files → transfer f = Except.error e →
      (⟨f.path, false, some e⟩ : UploadResult) ∈ uploadFiles transfer files := by
  refine ⟨uploadFiles_eq_map transfer files, ?_, ?_⟩
  · rw [uploadFiles_eq_map]
    simp
  · intro f e hf he
    rw [uploadFiles_eq_map]
    refine List.mem_map.mpr ⟨f, hf, ?_⟩
    rw [uploadOutcome, he]

/-- Claim C8, witness: with a transfer oracle failing exactly on the file
bad, the failure entry appears in the result list of a three-file batch. -/
theorem claim_C8_witness :
    (⟨"bad", false, some "boom"⟩ : UploadResult) ∈
      uploadFiles demoTransfer
        [⟨"good", [1], "md"⟩, ⟨"bad", [2], "md"⟩, ⟨"x.png", [3], "png"⟩] :=
  (claim_C8_upload_isolation demoTransfer
      [⟨"good", [1], "md"⟩, ⟨"bad", [2], "md"⟩, ⟨"x.png", [3], "png"⟩]).2.2
    ⟨"bad", [2], "md"⟩ "boom" (by decide) rfl

/-- Claim C6: if the tracked files are all PENDING before tick N and all
SUCCESS at tick N with N strictly below the deadline, waitForSync reports
success without timeout; if they never leave PENDING up to the deadline,
it reports a timeout carrying the full still-pending snapshot. -/
theorem claim_C6_convergence (statusAt : Nat → List Blob) (d : Int) (N : Nat) :
    ((∀ t, t < N → ∀ b ∈ statusAt t, b.syncStatus = SyncStatus.PENDING) →
      (∀ b ∈ statusAt N, b.syncStatus = SyncStatus.SUCCESS) →
      (N : Int) < d →
      (waitForSync statusAt d).success = true ∧
        (waitForSync statusAt d).timeout = false) ∧
    ((∀ t, t ≤ d.toNat →
        statusAt t ≠ [] ∧ ∀ b ∈ statusAt t, b.syncStatus = SyncStatus.PENDING) →
      (waitForSync statusAt d).timeout = true ∧
        (waitForSync statusAt d).success = false ∧
        (waitForSync statusAt d).blobs = statusAt d.toNat ∧
        ∀ b ∈ (waitForSync statusAt d).blobs, b.syncStatus = SyncStatus.PENDING) := by
  constructor
  · intro hpend hsucc hN
    exact waitForSyncAux_success statusAt N hsucc d.toNat 0 (by omega) (by omega)
      (fun u _ hu2 => hpend u hu2)
  · intro h
    have haux := waitForSyncAux_timeout statusAt d.toNat 0
      (fun u _ hu2 => h u (by omega))
    rw [Nat.zero_add] at haux
    unfold waitForSync
    rw [haux]
    exact ⟨rfl, rfl, rfl, (h d.toNat le_rfl).2⟩

/-- Claim C6, witness: the theorem applied to a file that converges at tick
2 under deadline 5, and to a file that stays PENDING under deadline 3. -/
theorem claim_C6_witness :
    ((waitForSync demoStatusSucc 5).success = true ∧
      (waitForSync demoStatusSucc 5).timeout = false) ∧
    ((waitForSync demoStatusStuck 3).timeout = true ∧
      (waitForSync demoStatusStuck 3).success = false ∧
      (waitForSync demoStatusStuck 3).blobs = demoStatusStuck 3) := by
  refine ⟨(claim_C6_convergence demoStatusSucc 5 2).1 (by decide) (by decide) (by decide),
    ?_⟩
  have h := (claim_C6_convergence demoStatusStuck 3 0).2 (by decide)
  exact ⟨h.1, h.2.1, h.2.2.1⟩

/-- Claim C10: a zero or negative deadline skips the polling loop entirely;
waitForSync reports success:false with timeout:true and the tick-0
snapshot, even when every tracked file is already terminal. -/
theorem claim_C10_nonpositive_deadline (statusAt : Nat → List Blob) (d : Int)
    (h : d ≤ 0) :
    waitForSync statusAt d =
      { success := false, blobs := statusAt 0, errors := none, timeout := true } := by
  have h0 : d.toNat = 0 := by omega
  unfold waitForSync
  rw [h0, waitForSyncAux]

/-- Claim C10, witness: the theorem applied at deadline 0 to a file already
in the terminal SUCCESS state. -/
theorem claim_C10_witness :
    waitForSync demoStatusDone 0 =
      { success := false, blobs := demoStatusDone 0, errors := none, timeout := true } :=
  claim_C10_nonpositive_deadline demoStatusDone 0 (by decide)

example : resolveFilePathToUrlPath "README.md" = "/" := by decide
example : resolveFilePathToUrlPath "docs/index.mdx" = "docs" := by decide
example : resolveFilePathToUrlPath "a/b.md" = "a/b" := by decide
example : resolveFilePathToUrlPath "index/index.md" = "index" := by decide
example : resolveFilePathToUrlPath "ReadMe.md" = "ReadMe" := by decide
example : resolveFilePathToUrlPath "docs/INDEX.md" = "docs" := by decide
example : resolveFilePathToUrlPath "docs/Index.md" = "docs/Index" := by decide
example : getExtension "photo.PNG" = "png" := by decide
example : getExtension ".env" = "" := by decide
example : getExtension "a/b.c.mdx" = "mdx" := by decide
example : basenameNoExt "x/intro.md" = "intro" := by decide
example : basenameNoExt ".md" = ".md" := by decide
example : shouldIncludeFile "sub/.git/config" = true := by decide
example : shouldIncludeFile ".git/config" = false := by decide
example : shouldIncludeFile "notes/a.log" = false := by decide

example :
    targetPaths (discoverFiles [.file "x/README.md" [1], .file "y/README.md" [2]]) =
      ["README.md", "README.md"] := by decide

example :
    targetPaths (discoverFiles [.dir "proj"
      [.file "intro.md" [1], .dir "sub" [.dir ".git" [.file "config" [2]]]]]) =
      ["intro.md", "sub/.git/config"] := by decide

example : targetPaths (discoverFiles [.file "photo.png" [7]]) = ["README.md"] := by decide

example :
    discoverFiles [.file "a/notes.md" [1]] =
      .ok [{ originalPath := "a/notes.md", path := "README.md", content := [1], size := 1,
             extension := "md", appPath := some "/", projectName := some "notes" }] := rfl

end Flowershow
